import Mathlib

/-!
# Quiz leaderboard: a shallow embedding of `frontend/src/App.jsx`

The React component `QuizLeaderboardApp` keeps its state in `useState` cells and
in the `quizLeaderboard` key of `localStorage`.  The embedding makes that state
an explicit record, `AppState`, and turns every handler of the component into a
function on it.  Things the handlers leave to the environment are explicit too:

* the clock (`Date.now()`) is a parameter `now`;
* the outcome of a wallet call (`signAndSubmitTransaction`,
  `waitForTransaction`) is a `Bool` parameter, `true` when the awaited promise
  resolves and `false` when it rejects;
* a `setTimeout` callback that has been scheduled and has not run yet is an
  item of a list of pending timers, together with the values its closure
  captured;
* calls made to the wallet and `alert` boxes are appended to a log.
-/

namespace QuizLeaderboard

/-! ## Data model -/

/-- One record of the `quizLeaderboard` array:
`{ address: accountAddress, score: score, timestamp: Date.now() }`. -/
structure Entry where
  address : String
  score : Nat
  timestamp : Nat
deriving DecidableEq, Repr

/-- The values of `currentView`. -/
inductive View where
  | home
  | quiz
  | leaderboard
deriving DecidableEq, Repr

/-- An item of the `arguments` array of a transaction payload. -/
inductive Argument where
  | number (value : Nat)
  | text (value : String)
deriving DecidableEq, Repr

/-- What the component does to the outside world. -/
inductive Effect where
  | alert (message : String)
  | signAndSubmitTransaction (function : String) (arguments : List Argument)
  | waitForTransaction
deriving DecidableEq, Repr

/-- The `useState` cells of `QuizLeaderboardApp`, then the environment:
`localStorage` is the parsed value of the `quizLeaderboard` key (absent key and
`'[]'` are both the empty list), `revealTimers` the pending callbacks scheduled
by `handleAnswerSelect` (each with the `currentQuestion` its closure captured,
oldest first), `fetchTimers` the number of pending `setTimeout(fetchLeaderboard)`
callbacks scheduled by `submitScoreToBlockchain`, `effects` the log. -/
structure AppState where
  walletConnected : Bool
  accountAddress : String
  currentView : View
  currentQuestion : Nat
  score : Nat
  selectedAnswer : Option Nat
  quizCompleted : Bool
  leaderboard : List Entry
  isSubmitting : Bool
  submitSuccess : Bool
  rewardClaimed : Bool
  localStorage : List Entry
  revealTimers : List Nat
  fetchTimers : Nat
  effects : List Effect
deriving DecidableEq, Repr

/-- The `correct` field of each item of `QUIZ_QUESTIONS`, in order. -/
def QUIZ_QUESTIONS : List Nat := [0, 2, 1, 2, 2, 1, 1, 1, 2, 1]

/-- The constant `CONTRACT_ADDRESS`. -/
def CONTRACT_ADDRESS : String :=
  "0xe951aac52d1581381c4428d16d4e4146b635630dc1c05d2ff40d987539da4488"

/-- The state of a freshly mounted component (the arguments of the `useState`
calls), over an empty `localStorage`. -/
def initialState : AppState :=
  { walletConnected := false
    accountAddress := ""
    currentView := View.home
    currentQuestion := 0
    score := 0
    selectedAnswer := none
    quizCompleted := false
    leaderboard := []
    isSubmitting := false
    submitSuccess := false
    rewardClaimed := false
    localStorage := []
    revealTimers := []
    fetchTimers := 0
    effects := [] }

/-! ## The local store -/

/-- `Array.prototype.findIndex`; `none` stands for the result `-1`. -/
def findIndex (p : Entry → Bool) : List Entry → Option Nat
  | [] => none
  | entry :: rest =>
    if p entry then some 0
    else match findIndex p rest with
      | some i => some (i + 1)
      | none => none

/-- The `catch` branch of `submitScoreToBlockchain` on the parsed array
(lines 168-177): find the entry of `accountAddress`; replace it when the new
score is strictly greater, leave the array alone when it is not, push a new
entry when there is none. -/
def upsertLocal (mockLeaderboard : List Entry) (accountAddress : String) (score now : Nat) :
    List Entry :=
  match findIndex (fun entry => entry.address == accountAddress) mockLeaderboard with
  | some existingIndex =>
    match mockLeaderboard[existingIndex]? with
    | some existing =>
      if score > existing.score then
        mockLeaderboard.set existingIndex ⟨accountAddress, score, now⟩
      else mockLeaderboard
    | none => mockLeaderboard
  | none => mockLeaderboard ++ [⟨accountAddress, score, now⟩]

/-- The score stored for an identity: that of the entry `findIndex` finds. -/
def storedScore (store : List Entry) (accountAddress : String) : Option Nat :=
  match findIndex (fun entry => entry.address == accountAddress) store with
  | some i => (store[i]?).map Entry.score
  | none => none

/-- A run of submissions `(score, now)` of one identity through the local store. -/
def submitAll (store : List Entry) (accountAddress : String) : List (Nat × Nat) → List Entry
  | [] => store
  | (score, now) :: rest => submitAll (upsertLocal store accountAddress score now) accountAddress rest

/-- A run of submissions `(address, score, now)` of any identities. -/
def submitMany (store : List Entry) : List (String × Nat × Nat) → List Entry
  | [] => store
  | (address, score, now) :: rest => submitMany (upsertLocal store address score now) rest

/-- No two entries share an address. -/
def UniqueAddresses (store : List Entry) : Prop :=
  (store.map Entry.address).Nodup

instance (store : List Entry) : Decidable (UniqueAddresses store) := by
  unfold UniqueAddresses; infer_instance

/-! ## The leaderboard -/

/-- Insertion of one entry in a list sorted by the comparator
`(a, b) => b.score - a.score`: the entry goes before the first one whose score
is not greater than its own. -/
def insertByScore (a : Entry) : List Entry → List Entry
  | [] => [a]
  | b :: rest => if b.score > a.score then b :: insertByScore a rest else a :: b :: rest

/-- `mockData.sort((a, b) => b.score - a.score)`.  `Array.prototype.sort` is
stable, and a stable sort by a consistent comparator has one result, whatever
the algorithm; here it is computed by insertion from the right. -/
def sortByScore : List Entry → List Entry
  | [] => []
  | a :: rest => insertByScore a (sortByScore rest)

/-- `fetchLeaderboard`: parse the store, sort it, set `leaderboard`.  The
store itself is not written. -/
def fetchLeaderboard (s : AppState) : AppState :=
  { s with leaderboard := sortByScore s.localStorage }

/-- The order the leaderboard is specified to have: score descending, and
among equal scores the earlier timestamp first. -/
def RankedByScoreThenTime (view : List Entry) : Prop :=
  view.Pairwise (fun x y => x.score > y.score ∨ (x.score = y.score ∧ x.timestamp ≤ y.timestamp))

/-- The order the sort gives: score descending. -/
def RankedByScore (view : List Entry) : Prop :=
  view.Pairwise (fun x y => x.score ≥ y.score)

/-- The entries of the store that hold a given score, in store order. -/
def withScore (v : Nat) (store : List Entry) : List Entry :=
  store.filter (fun e => e.score == v)

/-- Number of entries plus sum of scores: a quantity a reordering keeps. -/
def storeWeight (store : List Entry) : Nat :=
  store.length + (store.map Entry.score).sum

/-- A store in which B reached 95 after C did, but was entered before C:
A submits 80, B submits 50, C submits 95 at time 1, B improves to 95 at time 2,
D submits 10. -/
def tieStore : List Entry :=
  submitMany [] [("A", 80, 0), ("B", 50, 0), ("C", 95, 1), ("B", 95, 2), ("D", 10, 3)]

/-! ## The quiz -/

/-- `startQuiz`: an alert and nothing else without a wallet; otherwise the
quiz cells are reset and the quiz view is shown.  Pending timers are not
touched: the component never calls `clearTimeout`. -/
def startQuiz (s : AppState) : AppState :=
  if !s.walletConnected then
    { s with effects := s.effects ++
        [Effect.alert "Please connect your Petra wallet first to start the quiz!"] }
  else
    { s with
      currentQuestion := 0
      score := 0
      selectedAnswer := none
      quizCompleted := false
      submitSuccess := false
      currentView := View.quiz }

/-- `handleAnswerSelect(index)`: nothing when an answer is already selected;
otherwise the answer is recorded, the score grows by 10 when the answer is the
correct one, and a timer is scheduled whose closure holds the present
`currentQuestion`.  Reading `.correct` of a question beyond the end of
`QUIZ_QUESTIONS` throws after `setSelectedAnswer` has been called. -/
def handleAnswerSelect (index : Nat) (s : AppState) : AppState :=
  if s.selectedAnswer ≠ none then s
  else
    match QUIZ_QUESTIONS[s.currentQuestion]? with
    | none => { s with selectedAnswer := some index }
    | some correct =>
      let isCorrect := index == correct
      { s with
        selectedAnswer := some index
        score := if isCorrect then s.score + 10 else s.score
        revealTimers := s.revealTimers ++ [s.currentQuestion] }

/-- The body of the callback `handleAnswerSelect` passes to `setTimeout`, for
a closure that captured `currentQuestion`. -/
def revealToNext (currentQuestion : Nat) (s : AppState) : AppState :=
  if currentQuestion < QUIZ_QUESTIONS.length - 1 then
    { s with currentQuestion := currentQuestion + 1, selectedAnswer := none }
  else
    { s with quizCompleted := true }

/-- The pending reveal timer number `k` (0 is the oldest) runs; nothing
happens when there is no such timer. -/
def fireRevealTimer (k : Nat) (s : AppState) : AppState :=
  match s.revealTimers[k]? with
  | none => s
  | some currentQuestion =>
    revealToNext currentQuestion { s with revealTimers := s.revealTimers.eraseIdx k }

/-- One answer with its own reveal: `handleAnswerSelect`, then the timer that
call scheduled, which is the newest pending one. -/
def answerAndReveal (index : Nat) (s : AppState) : AppState :=
  let answered := handleAnswerSelect index s
  fireRevealTimer (answered.revealTimers.length - 1) answered

/-- A whole sequence of answers, each followed by its reveal. -/
def playAnswers (s : AppState) : List Nat → AppState
  | [] => s
  | index :: rest => playAnswers (answerAndReveal index s) rest

/-- The number of answers equal to the correct index of their question, the
questions being taken in order from number `k`. -/
def countCorrect (k : Nat) : List Nat → Nat
  | [] => 0
  | index :: rest =>
    (if QUIZ_QUESTIONS[k]? = some index then 1 else 0) + countCorrect (k + 1) rest

/-- The steps of the quiz state machine: the two handlers, a pending reveal
timer running, and the `Back to Home` button of the quiz view
(`setCurrentView('home')`). -/
inductive QuizStep where
  | startQuiz
  | handleAnswerSelect (index : Nat)
  | fireRevealTimer (k : Nat)
  | leaveQuiz
deriving DecidableEq, Repr

/-- One step of the quiz state machine. -/
def quizStep (s : AppState) : QuizStep → AppState
  | QuizStep.startQuiz => startQuiz s
  | QuizStep.handleAnswerSelect index => handleAnswerSelect index s
  | QuizStep.fireRevealTimer k => fireRevealTimer k s
  | QuizStep.leaveQuiz => { s with currentView := View.home }

/-- A run of the quiz state machine. -/
def quizRun (s : AppState) : List QuizStep → AppState
  | [] => s
  | step :: rest => quizRun (quizStep s step) rest

/-- The number of questions answered in the current session at the end of a
run: an answer counts when `handleAnswerSelect` accepts it (none selected
yet), and a `startQuiz` that opens a session (wallet connected) restarts the
count. `answered` is the count at the start of the run. -/
def answeredInSession (answered : Nat) (s : AppState) : List QuizStep → Nat
  | [] => answered
  | QuizStep.startQuiz :: rest =>
    answeredInSession (if s.walletConnected then 0 else answered) (startQuiz s) rest
  | QuizStep.handleAnswerSelect index :: rest =>
    answeredInSession (if s.selectedAnswer = none then answered + 1 else answered)
      (handleAnswerSelect index s) rest
  | step :: rest => answeredInSession answered (quizStep s step) rest

/-- `startQuiz` is called only while no reveal timer is pending. -/
def NoRestartWhilePending (s : AppState) : List QuizStep → Prop
  | [] => True
  | step :: rest =>
    (step = QuizStep.startQuiz → s.revealTimers = []) ∧ NoRestartWhilePending (quizStep s step) rest

/-- A state in which no question is answered yet and no timer is pending: the
mounted component, or a session just opened by `startQuiz` with no timer left
over. -/
def FreshSession (s : AppState) : Prop :=
  s.currentQuestion = 0 ∧ s.selectedAnswer = none ∧ s.quizCompleted = false ∧ s.revealTimers = []

/-- The state of a session in which `answered` questions have been answered:
`currentQuestion` counts the answered questions whose reveal is over, there
is a selected answer exactly while the last answered question is not left, and
the only timer that can be pending is the reveal of the current question. -/
def SessionAt (answered : Nat) (s : AppState) : Prop :=
  s.currentQuestion ≤ 9 ∧
    s.currentQuestion + (if s.selectedAnswer = none then 0 else 1) = answered ∧
    (s.revealTimers = [] ∨ (s.revealTimers = [s.currentQuestion] ∧ s.selectedAnswer ≠ none))

instance (s : AppState) : Decidable (FreshSession s) := by
  unfold FreshSession; infer_instance

instance (answered : Nat) (s : AppState) : Decidable (SessionAt answered s) := by
  unfold SessionAt; infer_instance

/-- `NoRestartWhilePending` can be computed along the run. -/
def decideNoRestartWhilePending :
    (s : AppState) → (steps : List QuizStep) → Decidable (NoRestartWhilePending s steps)
  | _, [] => isTrue trivial
  | s, step :: rest =>
    match decideNoRestartWhilePending (quizStep s step) rest with
    | isTrue hrest =>
      if h : step = QuizStep.startQuiz → s.revealTimers = [] then isTrue ⟨h, hrest⟩
      else isFalse (fun hall => h hall.1)
    | isFalse hrest => isFalse (fun hall => hrest hall.2)

instance (s : AppState) (steps : List QuizStep) : Decidable (NoRestartWhilePending s steps) :=
  decideNoRestartWhilePending s steps

/-- A run with two sessions, the second started after the reveal of the first
has run: X starts, answers and is shown question 2, answers it, leaves, the
reveal runs, X starts again and answers. -/
def patientRun : List QuizStep :=
  [QuizStep.startQuiz, QuizStep.handleAnswerSelect 0, QuizStep.fireRevealTimer 0,
    QuizStep.handleAnswerSelect 1, QuizStep.leaveQuiz, QuizStep.fireRevealTimer 0,
    QuizStep.startQuiz, QuizStep.handleAnswerSelect 3]

/-! ## Score submission -/

/-- `submitScoreToBlockchain`.  `ledgerOk` tells whether the two awaited
wallet calls resolve.  When they do, the local store is not written and a
`fetchLeaderboard` is scheduled; when one rejects, the `catch` branch upserts
the local store and calls `fetchLeaderboard` at once (the log then holds the
first call only).  `setIsSubmitting(true)` is undone by the `finally` block. -/
def submitScoreToBlockchain (ledgerOk : Bool) (now : Nat) (s : AppState) : AppState :=
  if !s.walletConnected then s
  else
    let call := Effect.signAndSubmitTransaction
      (CONTRACT_ADDRESS ++ "::leaderboard::submit_score")
      [Argument.number s.score, Argument.text CONTRACT_ADDRESS]
    if ledgerOk then
      { s with
        effects := s.effects ++ [call, Effect.waitForTransaction]
        submitSuccess := true
        fetchTimers := s.fetchTimers + 1
        isSubmitting := false }
    else
      let mockLeaderboard := upsertLocal s.localStorage s.accountAddress s.score now
      fetchLeaderboard
        { s with
          effects := s.effects ++ [call]
          localStorage := mockLeaderboard
          submitSuccess := true
          isSubmitting := false }

/-- A callback scheduled by `setTimeout(() => { fetchLeaderboard(); }, 2000)`
runs; nothing happens when none is pending. -/
def fireFetchTimer (s : AppState) : AppState :=
  match s.fetchTimers with
  | 0 => s
  | n + 1 => fetchLeaderboard { s with fetchTimers := n }

/-! ## Reward claim -/

/-- `leaderboard.findIndex(entry => entry.address === accountAddress) + 1`:
the 1-based position of the connected identity, 0 when it has no entry. -/
def userRank (s : AppState) : Nat :=
  match findIndex (fun entry => entry.address == s.accountAddress) s.leaderboard with
  | some i => i + 1
  | none => 0

/-- `isTopPerformer` of `LeaderboardView`. -/
def isTopPerformer (s : AppState) : Bool :=
  userRank s > 0 && userRank s ≤ 3

/-- The condition under which `LeaderboardView` renders the reward banner and
its `Claim Reward` button, the only caller of `claimReward`. -/
def claimOffered (s : AppState) : Bool :=
  isTopPerformer s && !s.rewardClaimed && s.walletConnected

/-- The call `claimReward` makes to the wallet. -/
def claimCall : Effect :=
  Effect.signAndSubmitTransaction (CONTRACT_ADDRESS ++ "::leaderboard::claim_reward")
    [Argument.text CONTRACT_ADDRESS]

/-- `claimReward`.  `txOk` tells whether `signAndSubmitTransaction` resolves.
Both the `try` block and the `catch` block end in `setRewardClaimed(true)`. -/
def claimReward (txOk : Bool) (s : AppState) : AppState :=
  if !s.walletConnected then
    { s with effects := s.effects ++ [Effect.alert "Please connect your wallet first!"] }
  else if userRank s > 3 || userRank s == 0 then
    { s with effects := s.effects ++ [Effect.alert "Only top 3 performers can claim rewards!"] }
  else if txOk then
    { s with effects := s.effects ++ [claimCall], rewardClaimed := true }
  else
    { s with effects := s.effects ++ [claimCall], rewardClaimed := true }

/-- The number of times the claim transaction was handed to the wallet. -/
def claimCalls (s : AppState) : Nat :=
  s.effects.count claimCall

/-! ## Example states -/

/-- The mounted component after identity X has connected its wallet. -/
def connectedX : AppState :=
  { initialState with walletConnected := true, accountAddress := "X" }

/-- A quiz of X in which question 4 has been answered with option 1 and its
reveal is pending. -/
def answeredX : AppState :=
  { connectedX with
    currentView := View.quiz
    currentQuestion := 3
    score := 20
    selectedAnswer := some 1
    revealTimers := [3] }

/-- The state reached when X starts the quiz and answers all ten questions
correctly: the quiz is completed with a score of 100, the store is empty. -/
def finishedX : AppState :=
  playAnswers (startQuiz connectedX) [0, 2, 1, 2, 2, 1, 1, 1, 2, 1]

/-- The state reached when X then submits the score at time 5 while the ledger
write fails, and opens the leaderboard: X is first and has not claimed. -/
def rankedX : AppState :=
  { submitScoreToBlockchain false 5 finishedX with currentView := View.leaderboard }

/-- A run in which a session is abandoned and restarted while a reveal is
pending: X starts the quiz, answers question 1, goes back to the home view,
starts the quiz again, and then the timer of the first session runs. -/
def restartRun : List QuizStep :=
  [QuizStep.startQuiz, QuizStep.handleAnswerSelect 0, QuizStep.leaveQuiz, QuizStep.startQuiz,
    QuizStep.fireRevealTimer 0]

/-- The same with three questions answered and revealed before the fourth is
answered and the session abandoned. -/
def lateRestartRun : List QuizStep :=
  [QuizStep.startQuiz,
    QuizStep.handleAnswerSelect 0, QuizStep.fireRevealTimer 0,
    QuizStep.handleAnswerSelect 2, QuizStep.fireRevealTimer 0,
    QuizStep.handleAnswerSelect 1, QuizStep.fireRevealTimer 0,
    QuizStep.handleAnswerSelect 2, QuizStep.leaveQuiz, QuizStep.startQuiz,
    QuizStep.fireRevealTimer 0]

/-- The state `rankedX` after a first call of `claimReward` whose transaction
went through. -/
def claimedX : AppState :=
  claimReward true rankedX

/-! ## Lemmas on the local store -/

theorem findIndex_cons (p : Entry → Bool) (e : Entry) (es : List Entry) :
    findIndex p (e :: es) = if p e then some 0 else (findIndex p es).map (· + 1) := by
  simp only [findIndex]
  split
  · rfl
  · cases findIndex p es <;> rfl

theorem upsertLocal_nil (a : String) (sc t : Nat) :
    upsertLocal [] a sc t = [⟨a, sc, t⟩] := by
  simp [upsertLocal, findIndex]

/-- The upsert, read along the list: the first entry of the address decides. -/
theorem upsertLocal_cons (e : Entry) (es : List Entry) (a : String) (sc t : Nat) :
    upsertLocal (e :: es) a sc t =
      if e.address = a then (if sc > e.score then ⟨a, sc, t⟩ :: es else e :: es)
      else e :: upsertLocal es a sc t := by
  by_cases h : e.address = a
  · simp [upsertLocal, findIndex_cons, h]
  · simp only [upsertLocal, findIndex_cons, beq_iff_eq, h, if_false]
    cases hf : findIndex (fun entry => entry.address == a) es with
    | none => simp
    | some i =>
      simp only [Option.map_some', List.getElem?_cons_succ, List.set_cons_succ]
      cases es[i]? with
      | none => rfl
      | some x => by_cases hx : sc > x.score <;> simp [hx]

theorem storedScore_nil (a : String) : storedScore [] a = none := by
  simp [storedScore, findIndex]

theorem storedScore_cons (e : Entry) (es : List Entry) (a : String) :
    storedScore (e :: es) a = if e.address = a then some e.score else storedScore es a := by
  by_cases h : e.address = a
  · simp [storedScore, findIndex_cons, h]
  · simp only [storedScore, findIndex_cons, beq_iff_eq, h, if_false]
    cases findIndex (fun entry => entry.address == a) es with
    | none => simp
    | some i => simp

/-- The first submission of an identity stores its score. -/
theorem storedScore_upsert_absent (store : List Entry) (a : String) (sc t : Nat)
    (h : ∀ e ∈ store, e.address ≠ a) :
    storedScore (upsertLocal store a sc t) a = some sc := by
  induction store with
  | nil => simp [upsertLocal_nil, storedScore_cons, storedScore_nil]
  | cons e es ih =>
    have he : e.address ≠ a := h e (List.mem_cons_self _ _)
    rw [upsertLocal_cons, if_neg he, storedScore_cons, if_neg he]
    exact ih (fun x hx => h x (List.mem_cons_of_mem _ hx))

/-- A later submission stores the greater of the stored and the new score. -/
theorem storedScore_upsert_present (store : List Entry) (a : String) (sc t m : Nat)
    (h : storedScore store a = some m) :
    storedScore (upsertLocal store a sc t) a = some (max m sc) := by
  induction store with
  | nil => simp [storedScore_nil] at h
  | cons e es ih =>
    rw [storedScore_cons] at h
    rw [upsertLocal_cons]
    by_cases he : e.address = a
    · rw [if_pos he] at h
      have hm : e.score = m := Option.some.inj h
      rw [if_pos he]
      by_cases hs : sc > e.score
      · rw [if_pos hs, storedScore_cons]
        simp only [if_true]
        congr 1
        omega
      · rw [if_neg hs, storedScore_cons, if_pos he]
        congr 1
        omega
    · rw [if_neg he] at h
      rw [if_neg he, storedScore_cons, if_neg he]
      exact ih h

theorem storedScore_submitAll (subs : List (Nat × Nat)) (store : List Entry) (a : String)
    (m : Nat) (h : storedScore store a = some m) :
    storedScore (submitAll store a subs) a =
      some (subs.foldl (fun acc p => max acc p.1) m) := by
  induction subs generalizing store m with
  | nil => simpa [submitAll] using h
  | cons p rest ih =>
    obtain ⟨sc, t⟩ := p
    simp only [submitAll, List.foldl_cons]
    exact ih _ _ (storedScore_upsert_present store a sc t m h)

/-- The running maximum is one of the values and bounds them all. -/
theorem foldl_max_spec (subs : List (Nat × Nat)) (m : Nat) :
    (subs.foldl (fun acc p => max acc p.1) m = m ∨
        subs.foldl (fun acc p => max acc p.1) m ∈ subs.map Prod.fst) ∧
      m ≤ subs.foldl (fun acc p => max acc p.1) m ∧
      ∀ x ∈ subs.map Prod.fst, x ≤ subs.foldl (fun acc p => max acc p.1) m := by
  induction subs generalizing m with
  | nil => simp
  | cons p rest ih =>
    obtain ⟨h1, h2, h3⟩ := ih (max m p.1)
    simp only [List.foldl_cons, List.map_cons, List.mem_cons, forall_eq_or_imp]
    refine ⟨?_, ?_, ?_, h3⟩
    · rcases h1 with h1 | h1
      · rw [h1]
        rcases le_total m p.1 with hle | hle
        · right; left; exact max_eq_right hle
        · left; exact max_eq_left hle
      · right; right; exact h1
    · exact le_trans (le_max_left _ _) h2
    · exact le_trans (le_max_right _ _) h2

/-- The addresses after an upsert: unchanged when the address is there, one
more at the end when it is not. -/
theorem map_address_upsertLocal (store : List Entry) (a : String) (sc t : Nat) :
    (upsertLocal store a sc t).map Entry.address =
      if a ∈ store.map Entry.address then store.map Entry.address
      else store.map Entry.address ++ [a] := by
  induction store with
  | nil => simp [upsertLocal_nil]
  | cons e es ih =>
    rw [upsertLocal_cons]
    by_cases he : e.address = a
    · by_cases hs : sc > e.score <;> simp [he, hs]
    · have hne : ¬ a = e.address := fun h => he h.symm
      simp only [if_neg he, List.map_cons, List.mem_cons, hne, false_or, ih]
      split <;> simp

theorem uniqueAddresses_upsertLocal (store : List Entry) (a : String) (sc t : Nat)
    (h : UniqueAddresses store) : UniqueAddresses (upsertLocal store a sc t) := by
  unfold UniqueAddresses at *
  rw [map_address_upsertLocal]
  split
  · exact h
  · rename_i hmem
    exact List.Nodup.append h (List.nodup_singleton a)
      (by simpa [List.disjoint_singleton] using hmem)

theorem uniqueAddresses_submitMany (subs : List (String × Nat × Nat)) (store : List Entry)
    (h : UniqueAddresses store) : UniqueAddresses (submitMany store subs) := by
  induction subs generalizing store with
  | nil => simpa [submitMany] using h
  | cons p rest ih =>
    obtain ⟨a, sc, t⟩ := p
    simp only [submitMany]
    exact ih _ (uniqueAddresses_upsertLocal store a sc t h)

/-! ## Lemmas on the sort -/

theorem insertByScore_perm (a : Entry) (l : List Entry) : (insertByScore a l).Perm (a :: l) := by
  induction l with
  | nil => exact List.Perm.refl _
  | cons b rest ih =>
    simp only [insertByScore]
    split
    · exact (List.Perm.cons b ih).trans (List.Perm.swap a b rest)
    · exact List.Perm.refl _

theorem sortByScore_perm (l : List Entry) : (sortByScore l).Perm l := by
  induction l with
  | nil => exact List.Perm.refl _
  | cons a rest ih =>
    simp only [sortByScore]
    exact (insertByScore_perm a _).trans (List.Perm.cons a ih)

theorem insertByScore_ranked (a : Entry) (l : List Entry) (h : RankedByScore l) :
    RankedByScore (insertByScore a l) := by
  unfold RankedByScore at *
  induction l with
  | nil => simp [insertByScore]
  | cons b rest ih =>
    simp only [insertByScore]
    rw [List.pairwise_cons] at h
    split
    · rename_i hgt
      rw [List.pairwise_cons]
      refine ⟨fun x hx => ?_, ih h.2⟩
      have hx2 : x ∈ a :: rest := (insertByScore_perm a rest).subset hx
      rcases List.mem_cons.1 hx2 with rfl | hx3
      · exact Nat.le_of_lt hgt
      · exact h.1 x hx3
    · rename_i hle
      have hab : a.score ≥ b.score := Nat.le_of_not_lt hle
      rw [List.pairwise_cons]
      refine ⟨fun x hx => ?_, List.pairwise_cons.2 h⟩
      rcases List.mem_cons.1 hx with rfl | hx3
      · exact hab
      · exact le_trans (h.1 x hx3) hab

theorem sortByScore_ranked (l : List Entry) : RankedByScore (sortByScore l) := by
  induction l with
  | nil => simp [sortByScore, RankedByScore]
  | cons a rest ih => exact insertByScore_ranked a _ ih

theorem withScore_insertByScore (v : Nat) (a : Entry) (l : List Entry) :
    withScore v (insertByScore a l) = withScore v (a :: l) := by
  unfold withScore
  induction l with
  | nil => rfl
  | cons b rest ih =>
    simp only [insertByScore]
    split
    · rename_i hgt
      rw [List.filter_cons, ih]
      by_cases ha : a.score = v
      · have hb : ¬ b.score = v := by omega
        simp [List.filter_cons, ha, hb]
      · by_cases hb : b.score = v <;> simp [List.filter_cons, ha, hb]
    · rfl

/-- The sort is stable: entries of one score keep their store order. -/
theorem withScore_sortByScore (v : Nat) (l : List Entry) :
    withScore v (sortByScore l) = withScore v l := by
  induction l with
  | nil => rfl
  | cons a rest ih =>
    simp only [sortByScore]
    rw [withScore_insertByScore]
    unfold withScore at *
    simp only [List.filter_cons, ih]

/-- Two lists sorted by score whose entries of each score come in the same
order are the same list: the result of a stable sort does not depend on the
algorithm. -/
theorem ranked_eq_of_withScore_eq (l1 l2 : List Entry) (h1 : RankedByScore l1)
    (h2 : RankedByScore l2) (h : ∀ v, withScore v l1 = withScore v l2) : l1 = l2 := by
  induction l1 generalizing l2 with
  | nil =>
    cases l2 with
    | nil => rfl
    | cons b r2 =>
      have := h b.score
      simp [withScore, List.filter_cons] at this
  | cons a r1 ih =>
    cases l2 with
    | nil =>
      have := h a.score
      simp [withScore, List.filter_cons] at this
    | cons b r2 =>
      unfold RankedByScore at h1 h2
      rw [List.pairwise_cons] at h1 h2
      have ha : a ∈ b :: r2 := by
        have hm : a ∈ withScore a.score (a :: r1) := by simp [withScore]
        rw [h a.score] at hm
        exact (List.mem_filter.1 hm).1
      have hb : b ∈ a :: r1 := by
        have hm : b ∈ withScore b.score (b :: r2) := by simp [withScore]
        rw [← h b.score] at hm
        exact (List.mem_filter.1 hm).1
      have hab : a.score ≤ b.score := by
        rcases List.mem_cons.1 ha with rfl | hmem
        · exact Nat.le_refl _
        · exact h2.1 a hmem
      have hba : b.score ≤ a.score := by
        rcases List.mem_cons.1 hb with rfl | hmem
        · exact Nat.le_refl _
        · exact h1.1 b hmem
      have hsc : b.score = a.score := le_antisymm hba hab
      have hhead := h a.score
      simp only [withScore, List.filter_cons, hsc, beq_self_eq_true, if_true,
        List.cons.injEq] at hhead
      obtain ⟨hEq, _⟩ := hhead
      subst hEq
      congr 1
      refine ih r2 h1.2 h2.2 (fun v => ?_)
      have hv := h v
      simp only [withScore, List.filter_cons] at hv ⊢
      split at hv
      · exact List.cons.inj hv |>.2
      · exact hv

/-- Any stable sort by score descending returns what `sortByScore` returns. -/
theorem stable_sort_eq_sortByScore (l sorted : List Entry) (h1 : RankedByScore sorted)
    (h2 : ∀ v, withScore v sorted = withScore v l) : sorted = sortByScore l :=
  ranked_eq_of_withScore_eq sorted (sortByScore l) h1 (sortByScore_ranked l)
    (fun v => by rw [h2 v, withScore_sortByScore])

/-! ## The local store: claims -/

/-- C1: for an identity with no entry in the store and a non-empty sequence of
scores submitted for it through the local-store upsert, the score stored
afterwards is the maximum of the submitted scores: it is one of them and no
submitted score exceeds it.  Hence any other sequence with the same set of
scores, in any order and with any duplication, leaves the same stored score. -/
theorem upsert_stores_max (store : List Entry) (a : String) (subs : List (Nat × Nat))
    (habsent : ∀ e ∈ store, e.address ≠ a) (hne : subs ≠ []) :
    (∃ m, storedScore (submitAll store a subs) a = some m ∧ m ∈ subs.map Prod.fst ∧
        ∀ x ∈ subs.map Prod.fst, x ≤ m) ∧
      ∀ subs2 : List (Nat × Nat), (∀ x, x ∈ subs2.map Prod.fst ↔ x ∈ subs.map Prod.fst) →
        storedScore (submitAll store a subs2) a = storedScore (submitAll store a subs) a := by
  have key : ∀ l : List (Nat × Nat), l ≠ [] →
      ∃ m, storedScore (submitAll store a l) a = some m ∧ m ∈ l.map Prod.fst ∧
        ∀ x ∈ l.map Prod.fst, x ≤ m := by
    intro l hl
    cases l with
    | nil => exact absurd rfl hl
    | cons p rest =>
      obtain ⟨sc, t⟩ := p
      have h1 := storedScore_upsert_absent store a sc t habsent
      have h2 := storedScore_submitAll rest _ a sc h1
      obtain ⟨f1, f2, f3⟩ := foldl_max_spec rest sc
      refine ⟨_, h2, ?_, ?_⟩
      · simp only [List.map_cons, List.mem_cons]
        rcases f1 with f1 | f1
        · left; exact f1
        · right; exact f1
      · simp only [List.map_cons, List.mem_cons, forall_eq_or_imp]
        exact ⟨f2, f3⟩
  refine ⟨key subs hne, fun subs2 hsame => ?_⟩
  have hne2 : subs2 ≠ [] := by
    intro h
    cases subs with
    | nil => exact hne rfl
    | cons p rest =>
      have := (hsame p.1).2 (by simp)
      simp [h] at this
  obtain ⟨m, hm, hmem, hmax⟩ := key subs hne
  obtain ⟨m2, hm2, hmem2, hmax2⟩ := key subs2 hne2
  rw [hm, hm2]
  congr 1
  exact le_antisymm (hmax m2 ((hsame m2).1 hmem2)) (hmax2 m ((hsame m).2 hmem))

/-- Witness of C1: B holds 50; A submits 30, 70, 70, 10. -/
theorem upsert_stores_max_witness :
    (∀ e ∈ [(⟨"B", 50, 0⟩ : Entry)], e.address ≠ "A") ∧
      [(30, 1), (70, 2), (70, 3), (10, 4)] ≠ ([] : List (Nat × Nat)) ∧
      storedScore (submitAll [⟨"B", 50, 0⟩] "A" [(30, 1), (70, 2), (70, 3), (10, 4)]) "A"
        = some 70 ∧
      ((∃ m, storedScore (submitAll [⟨"B", 50, 0⟩] "A" [(30, 1), (70, 2), (70, 3), (10, 4)]) "A"
            = some m ∧
          m ∈ [(30, 1), (70, 2), (70, 3), (10, 4)].map Prod.fst ∧
          ∀ x ∈ [(30, 1), (70, 2), (70, 3), (10, 4)].map Prod.fst, x ≤ m) ∧
        ∀ subs2 : List (Nat × Nat),
          (∀ x, x ∈ subs2.map Prod.fst ↔ x ∈ [(30, 1), (70, 2), (70, 3), (10, 4)].map Prod.fst) →
          storedScore (submitAll [⟨"B", 50, 0⟩] "A" subs2) "A" =
            storedScore (submitAll [⟨"B", 50, 0⟩] "A" [(30, 1), (70, 2), (70, 3), (10, 4)]) "A") :=
  ⟨by decide, by decide, by decide,
    upsert_stores_max [⟨"B", 50, 0⟩] "A" [(30, 1), (70, 2), (70, 3), (10, 4)]
      (by decide) (by decide)⟩

/-- C2: the upsert keeps the store at one entry per address at most, so every
store reached from a store with that property, and in particular from the
empty store, by any sequence of submissions has it. -/
theorem store_one_entry_per_identity (store : List Entry) (a : String) (sc t : Nat)
    (subs : List (String × Nat × Nat)) (h : UniqueAddresses store) :
    UniqueAddresses (upsertLocal store a sc t) ∧ UniqueAddresses (submitMany store subs) ∧
      UniqueAddresses (submitMany [] subs) :=
  ⟨uniqueAddresses_upsertLocal store a sc t h, uniqueAddresses_submitMany subs store h,
    uniqueAddresses_submitMany subs [] (by simp [UniqueAddresses])⟩

/-- Witness of C2: a store of A and B, a submission of B, then a run of three. -/
theorem store_one_entry_per_identity_witness :
    UniqueAddresses [⟨"A", 80, 0⟩, ⟨"B", 50, 1⟩] ∧
      (UniqueAddresses (upsertLocal [⟨"A", 80, 0⟩, ⟨"B", 50, 1⟩] "B" 60 2) ∧
        UniqueAddresses
          (submitMany [⟨"A", 80, 0⟩, ⟨"B", 50, 1⟩] [("C", 10, 3), ("A", 90, 4), ("C", 5, 5)]) ∧
        UniqueAddresses (submitMany [] [("C", 10, 3), ("A", 90, 4), ("C", 5, 5)])) :=
  ⟨by decide,
    store_one_entry_per_identity [⟨"A", 80, 0⟩, ⟨"B", 50, 1⟩] "B" 60 2
      [("C", 10, 3), ("A", 90, 4), ("C", 5, 5)] (by decide)⟩

/-! ## The leaderboard: claims -/

/-- C3, as stated, fails: on the store `tieStore`, which holds (A,80),
(B,95,t=2), (C,95,t=1), (D,10) in this order, `fetchLeaderboard` ranks B before
C although C reached 95 first, so the ranking is B, C, A, D and not C, B, A, D. -/
theorem fetchLeaderboard_ignores_timestamp :
    tieStore = [⟨"A", 80, 0⟩, ⟨"B", 95, 2⟩, ⟨"C", 95, 1⟩, ⟨"D", 10, 3⟩] ∧
      (fetchLeaderboard { initialState with localStorage := tieStore }).leaderboard.map
          Entry.address = ["B", "C", "A", "D"] ∧
      (fetchLeaderboard { initialState with localStorage := tieStore }).leaderboard.map
          Entry.address ≠ ["C", "B", "A", "D"] ∧
      ¬ RankedByScoreThenTime
          (fetchLeaderboard { initialState with localStorage := tieStore }).leaderboard := by
  refine ⟨by decide, by decide, by decide, ?_⟩
  have h : (fetchLeaderboard { initialState with localStorage := tieStore }).leaderboard =
      [⟨"B", 95, 2⟩, ⟨"C", 95, 1⟩, ⟨"A", 80, 0⟩, ⟨"D", 10, 3⟩] := by decide
  rw [h]
  unfold RankedByScoreThenTime
  intro hp
  have := (List.pairwise_cons.1 hp).1 ⟨"C", 95, 1⟩ (by simp)
  simp at this

/-- C3, amended: for every store snapshot the leaderboard `fetchLeaderboard`
sets holds exactly the entries of the store, sorted by score descending, with
entries of equal score in the order they have in the store (timestamps play no
part), and the store is not written; for the store holding (A,80), (B,95,t=2),
(C,95,t=1), (D,10) in this order the ranking is B, C, A, D. -/
theorem fetchLeaderboard_stable_by_score (s : AppState) :
    (fetchLeaderboard s).leaderboard.Perm s.localStorage ∧
      RankedByScore (fetchLeaderboard s).leaderboard ∧
      (∀ v, withScore v (fetchLeaderboard s).leaderboard = withScore v s.localStorage) ∧
      (fetchLeaderboard s).localStorage = s.localStorage ∧
      (fetchLeaderboard { s with localStorage :=
          [⟨"A", 80, 0⟩, ⟨"B", 95, 2⟩, ⟨"C", 95, 1⟩, ⟨"D", 10, 3⟩] }).leaderboard.map
        Entry.address = ["B", "C", "A", "D"] :=
  ⟨sortByScore_perm _, sortByScore_ranked _, fun v => withScore_sortByScore v _, rfl, by
    simp only [fetchLeaderboard]; decide⟩

/-! ## Lemmas on the quiz -/

theorem QUIZ_QUESTIONS_length : QUIZ_QUESTIONS.length = 10 := rfl

theorem QUIZ_QUESTIONS_get (k : Nat) (hk : k < 10) : ∃ c, QUIZ_QUESTIONS[k]? = some c :=
  ⟨QUIZ_QUESTIONS[k], List.getElem?_eq_getElem (by rw [QUIZ_QUESTIONS_length]; exact hk)⟩

/-- What one answer and its reveal do to a state in which no answer is selected. -/
theorem answerAndReveal_spec (i : Nat) (s : AppState) (hsel : s.selectedAnswer = none)
    (hk : s.currentQuestion < 10) :
    (answerAndReveal i s).score =
        s.score + (if QUIZ_QUESTIONS[s.currentQuestion]? = some i then 10 else 0) ∧
      (answerAndReveal i s).revealTimers = s.revealTimers ∧
      (s.currentQuestion < 9 →
        (answerAndReveal i s).currentQuestion = s.currentQuestion + 1 ∧
          (answerAndReveal i s).selectedAnswer = none ∧
          (answerAndReveal i s).quizCompleted = s.quizCompleted) ∧
      (s.currentQuestion = 9 →
        (answerAndReveal i s).currentQuestion = 9 ∧
          (answerAndReveal i s).selectedAnswer = some i ∧
          (answerAndReveal i s).quizCompleted = true) := by
  obtain ⟨c, hc⟩ := QUIZ_QUESTIONS_get s.currentQuestion hk
  have hscore : (if QUIZ_QUESTIONS[s.currentQuestion]? = some i then 10 else 0) =
      (if (i == c) = true then 10 else 0) := by
    rw [hc]
    by_cases hic : i = c
    · simp [hic]
    · have : ¬ c = i := fun h => hic h.symm
      simp [hic, this]
  rw [hscore]
  have hidx : (s.revealTimers ++ [s.currentQuestion]).length - 1 = s.revealTimers.length := by
    simp
  have hget : (s.revealTimers ++ [s.currentQuestion])[s.revealTimers.length]? =
      some s.currentQuestion := by simp
  have herase : (s.revealTimers ++ [s.currentQuestion]).eraseIdx s.revealTimers.length =
      s.revealTimers := by
    rw [List.eraseIdx_append_of_length_le (Nat.le_refl _)]
    simp
  have hlen : QUIZ_QUESTIONS.length - 1 = 9 := rfl
  refine ⟨?_, ?_, ?_, ?_⟩
  · simp only [answerAndReveal, handleAnswerSelect, hsel, hc, fireRevealTimer, hidx, hget,
      revealToNext, hlen]
    by_cases h9 : s.currentQuestion < 9 <;> by_cases hic : i = c <;> simp [h9, hic]
  · simp only [answerAndReveal, handleAnswerSelect, hsel, hc, fireRevealTimer, hidx, hget,
      revealToNext, hlen, herase]
    by_cases h9 : s.currentQuestion < 9 <;> simp [h9, herase]
  · intro h9
    simp only [answerAndReveal, handleAnswerSelect, hsel, hc, fireRevealTimer, hidx, hget,
      revealToNext, hlen]
    simp [h9]
  · intro h9
    have : ¬ s.currentQuestion < 9 := by omega
    simp only [answerAndReveal, handleAnswerSelect, hsel, hc, fireRevealTimer, hidx, hget,
      revealToNext, hlen]
    simp [this, h9]

theorem countCorrect_le (answers : List Nat) (k : Nat) : countCorrect k answers ≤ answers.length := by
  induction answers generalizing k with
  | nil => simp [countCorrect]
  | cons i rest ih =>
    simp only [countCorrect, List.length_cons]
    have := ih (k + 1)
    split <;> omega

/-- Answering the questions that remain, each with its reveal, completes the
quiz and adds 10 per correct answer. -/
theorem playAnswers_spec (answers : List Nat) (s : AppState) (hsel : s.selectedAnswer = none)
    (hlen : s.currentQuestion + answers.length = 10) (hne : answers ≠ []) :
    (playAnswers s answers).quizCompleted = true ∧
      (playAnswers s answers).score = s.score + 10 * countCorrect s.currentQuestion answers ∧
      (playAnswers s answers).currentQuestion = 9 ∧
      (playAnswers s answers).revealTimers = s.revealTimers := by
  induction answers generalizing s with
  | nil => exact absurd rfl hne
  | cons i rest ih =>
    have hk : s.currentQuestion < 10 := by simp only [List.length_cons] at hlen; omega
    obtain ⟨h1, h2, h3, h4⟩ := answerAndReveal_spec i s hsel hk
    cases rest with
    | nil =>
      have h9 : s.currentQuestion = 9 := by simp at hlen; omega
      obtain ⟨h5, _, h7⟩ := h4 h9
      simp only [playAnswers, countCorrect]
      refine ⟨h7, ?_, h5, h2⟩
      rw [h1]
      split <;> simp
    | cons j rest2 =>
      have h9 : s.currentQuestion < 9 := by simp at hlen; omega
      obtain ⟨h5, h6, _⟩ := h3 h9
      have := ih (answerAndReveal i s) h6 (by rw [h5]; simp at hlen ⊢; omega) (by simp)
      obtain ⟨g1, g2, g3, g4⟩ := this
      simp only [playAnswers] at g1 g2 g3 g4 ⊢
      refine ⟨g1, ?_, g3, by rw [g4, h2]⟩
      rw [g2, h1, h5]
      simp only [countCorrect]
      split <;> omega

/-! ## The quiz: claims -/

/-- C4: from the state `startQuiz` produces for a connected wallet, any 10
answers, each applied with `handleAnswerSelect` and followed by its reveal,
leave the quiz completed with a score of 10 times the number of answers equal
to the correct index of their question, and that score is between 0 and 100. -/
theorem quiz_score_ten_per_correct (s : AppState) (answers : List Nat)
    (hw : s.walletConnected = true) (hlen : answers.length = 10) :
    (playAnswers (startQuiz s) answers).quizCompleted = true ∧
      (playAnswers (startQuiz s) answers).score = 10 * countCorrect 0 answers ∧
      0 ≤ (playAnswers (startQuiz s) answers).score ∧
      (playAnswers (startQuiz s) answers).score ≤ 100 := by
  have hstart : (startQuiz s).selectedAnswer = none ∧ (startQuiz s).currentQuestion = 0 ∧
      (startQuiz s).score = 0 := by
    simp [startQuiz, hw]
  obtain ⟨a1, a2, a3⟩ := hstart
  have hne : answers ≠ [] := by
    intro h
    simp [h] at hlen
  obtain ⟨h1, h2, _, _⟩ := playAnswers_spec answers (startQuiz s) a1 (by rw [a2]; omega) hne
  rw [a2, a3] at h2
  have hle := countCorrect_le answers 0
  refine ⟨h1, by omega, Nat.zero_le _, by omega⟩

/-- Witness of C4: nine correct answers and a wrong last one score 90. -/
theorem quiz_score_ten_per_correct_witness :
    connectedX.walletConnected = true ∧
      [0, 2, 1, 2, 2, 1, 1, 1, 2, 3].length = 10 ∧
      countCorrect 0 [0, 2, 1, 2, 2, 1, 1, 1, 2, 3] = 9 ∧
      ((playAnswers (startQuiz connectedX) [0, 2, 1, 2, 2, 1, 1, 1, 2, 3]).quizCompleted = true ∧
        (playAnswers (startQuiz connectedX) [0, 2, 1, 2, 2, 1, 1, 1, 2, 3]).score =
          10 * countCorrect 0 [0, 2, 1, 2, 2, 1, 1, 1, 2, 3] ∧
        0 ≤ (playAnswers (startQuiz connectedX) [0, 2, 1, 2, 2, 1, 1, 1, 2, 3]).score ∧
        (playAnswers (startQuiz connectedX) [0, 2, 1, 2, 2, 1, 1, 1, 2, 3]).score ≤ 100) :=
  ⟨rfl, rfl, by decide,
    quiz_score_ten_per_correct connectedX [0, 2, 1, 2, 2, 1, 1, 1, 2, 3] rfl rfl⟩

/-- C5: when an answer is already selected, `handleAnswerSelect` returns the
state it was given, whatever the index: score, currentQuestion, selectedAnswer
and the pending reveal timers are all unchanged. -/
theorem handleAnswerSelect_answered_noop (s : AppState) (index : Nat)
    (h : s.selectedAnswer ≠ none) :
    handleAnswerSelect index s = s ∧
      (handleAnswerSelect index s).score = s.score ∧
      (handleAnswerSelect index s).currentQuestion = s.currentQuestion ∧
      (handleAnswerSelect index s).selectedAnswer = s.selectedAnswer ∧
      (handleAnswerSelect index s).revealTimers = s.revealTimers := by
  have : handleAnswerSelect index s = s := by simp [handleAnswerSelect, h]
  rw [this]
  exact ⟨rfl, rfl, rfl, rfl, rfl⟩

/-- Witness of C5: in `answeredX` a second click, on option 2, which is the
correct one, changes nothing. -/
theorem handleAnswerSelect_answered_noop_witness :
    answeredX.selectedAnswer ≠ none ∧
      (handleAnswerSelect 2 answeredX = answeredX ∧
        (handleAnswerSelect 2 answeredX).score = answeredX.score ∧
        (handleAnswerSelect 2 answeredX).currentQuestion = answeredX.currentQuestion ∧
        (handleAnswerSelect 2 answeredX).selectedAnswer = answeredX.selectedAnswer ∧
        (handleAnswerSelect 2 answeredX).revealTimers = answeredX.revealTimers) :=
  ⟨by decide, handleAnswerSelect_answered_noop answeredX 2 (by decide)⟩

/-! ## Lemmas on the rank -/

theorem findIndex_eq_none (p : Entry → Bool) (l : List Entry) :
    findIndex p l = none ↔ ∀ e ∈ l, p e = false := by
  induction l with
  | nil => simp [findIndex]
  | cons e es ih =>
    rw [findIndex_cons]
    by_cases h : p e = true
    · simp [h]
    · have hf : p e = false := by simpa using h
      simp [hf, ih]

theorem findIndex_eq_some (p : Entry → Bool) (l : List Entry) (i : Nat)
    (h : findIndex p l = some i) :
    (∃ e, l[i]? = some e ∧ p e = true) ∧ ∀ j, j < i → ∀ e, l[j]? = some e → p e = false := by
  induction l generalizing i with
  | nil => simp [findIndex] at h
  | cons e es ih =>
    rw [findIndex_cons] at h
    by_cases hp : p e = true
    · simp only [hp, if_true, Option.some.injEq] at h
      subst h
      exact ⟨⟨e, by simp, hp⟩, fun j hj => absurd hj (Nat.not_lt_zero j)⟩
    · have hf : p e = false := by simpa using hp
      rw [hf] at h
      simp only [Bool.false_eq_true, if_false, Option.map_eq_some'] at h
      obtain ⟨k, hk, rfl⟩ := h
      obtain ⟨⟨x, hx, hpx⟩, hbefore⟩ := ih k hk
      refine ⟨⟨x, by simpa using hx, hpx⟩, fun j hj y hy => ?_⟩
      cases j with
      | zero =>
        simp only [List.getElem?_cons_zero, Option.some.injEq] at hy
        subst hy
        simpa using hp
      | succ j =>
        simp only [List.getElem?_cons_succ] at hy
        exact hbefore j (by omega) y hy

/-- The rank is 0 exactly for an identity without entry in the leaderboard. -/
theorem userRank_eq_zero (s : AppState) :
    userRank s = 0 ↔ ∀ e ∈ s.leaderboard, e.address ≠ s.accountAddress := by
  unfold userRank
  cases h : findIndex (fun entry => entry.address == s.accountAddress) s.leaderboard with
  | none =>
    simp only [true_iff]
    intro e he
    have := (findIndex_eq_none _ _).1 h e he
    simpa using this
  | some i =>
    simp only [Nat.add_one_ne_zero, false_iff]
    intro hall
    have hnone := (findIndex_eq_none (fun entry => entry.address == s.accountAddress)
      s.leaderboard).2 (fun e he => by simpa using hall e he)
    rw [h] at hnone
    exact Option.noConfusion hnone

/-- A positive rank is the 1-based position of the first entry of the identity. -/
theorem userRank_eq_succ (s : AppState) (i : Nat) (h : userRank s = i + 1) :
    (∃ e, s.leaderboard[i]? = some e ∧ e.address = s.accountAddress) ∧
      ∀ j, j < i → ∀ e, s.leaderboard[j]? = some e → e.address ≠ s.accountAddress := by
  unfold userRank at h
  cases hf : findIndex (fun entry => entry.address == s.accountAddress) s.leaderboard with
  | none => rw [hf] at h; simp at h
  | some k =>
    rw [hf] at h
    have hk : k = i := by simpa using h
    subst hk
    obtain ⟨⟨e, he, hpe⟩, hbefore⟩ := findIndex_eq_some _ _ _ hf
    refine ⟨⟨e, he, by simpa using hpe⟩, fun j hj y hy => ?_⟩
    have := hbefore j hj y hy
    simpa using this

/-! ## The reward claim: claims -/

/-- C6, as stated, fails: `claimReward` does not look at `rewardClaimed`.  In
`claimedX` the reward of X is claimed and the transaction has been handed to
the wallet once; a second call of `claimReward` hands it over again, both when
it then resolves and when it rejects, and shows no alert. -/
theorem claimReward_reexecutes_when_claimed :
    claimedX.rewardClaimed = true ∧ claimCalls claimedX = 1 ∧
      claimCalls (claimReward true claimedX) = 2 ∧
      claimCalls (claimReward false claimedX) = 2 ∧
      (claimReward true claimedX).effects = claimedX.effects ++ [claimCall] := by
  refine ⟨by decide, by decide, by decide, by decide, by decide⟩

/-- C6, amended: in every state in which `rewardClaimed` is true the
leaderboard view does not offer the claim (the `Claim Reward` button, the only
caller of `claimReward`, is not rendered), and `rewardClaimed` is still true
after any call of `claimReward`. -/
theorem claim_not_offered_when_claimed (s : AppState) (h : s.rewardClaimed = true) :
    claimOffered s = false ∧ ∀ txOk, (claimReward txOk s).rewardClaimed = true := by
  refine ⟨by simp [claimOffered, h], fun txOk => ?_⟩
  unfold claimReward
  split
  · exact h
  · split
    · exact h
    · split <;> rfl

/-- Witness of the amended C6 at `claimedX`. -/
theorem claim_not_offered_when_claimed_witness :
    claimedX.rewardClaimed = true ∧
      (claimOffered claimedX = false ∧ ∀ txOk, (claimReward txOk claimedX).rewardClaimed = true) :=
  ⟨by decide, claim_not_offered_when_claimed claimedX (by decide)⟩

/-- C7, as stated, fails: in `rankedX` the reward of X is not claimed; a call
of `claimReward` whose transaction rejects hands the transaction to the wallet
and leaves `rewardClaimed` true, after which the claim is no longer offered. -/
theorem claimReward_failure_marks_claimed :
    rankedX.rewardClaimed = false ∧ claimOffered rankedX = true ∧
      (claimReward false rankedX).effects = rankedX.effects ++ [claimCall] ∧
      (claimReward false rankedX).rewardClaimed = true ∧
      (claimReward false rankedX).rewardClaimed ≠ rankedX.rewardClaimed ∧
      claimOffered (claimReward false rankedX) = false := by
  refine ⟨by decide, by decide, by decide, by decide, by decide, by decide⟩

/-- C7, amended: in every state in which `claimReward` attempts the claim
transaction (wallet connected, rank 1, 2 or 3), the transaction is handed to
the wallet once and `rewardClaimed` is true after the call, whether the
transaction resolves or rejects; the claim is not offered afterwards. -/
theorem claimReward_marks_claimed_either_way (s : AppState) (txOk : Bool)
    (hw : s.walletConnected = true) (hr : 1 ≤ userRank s ∧ userRank s ≤ 3) :
    (claimReward txOk s).effects = s.effects ++ [claimCall] ∧
      (claimReward txOk s).rewardClaimed = true ∧
      claimOffered (claimReward txOk s) = false := by
  have h1 : ¬ (userRank s > 3) := by omega
  have h2 : ¬ (userRank s = 0) := by omega
  have hstate : claimReward txOk s =
      { s with effects := s.effects ++ [claimCall], rewardClaimed := true } := by
    cases txOk <;> simp [claimReward, hw, h1, h2]
  rw [hstate]
  refine ⟨rfl, rfl, ?_⟩
  simp [claimOffered]

/-- Witness of the amended C7 at `rankedX` with a rejected transaction. -/
theorem claimReward_marks_claimed_either_way_witness :
    rankedX.walletConnected = true ∧ (1 ≤ userRank rankedX ∧ userRank rankedX ≤ 3) ∧
      ((claimReward false rankedX).effects = rankedX.effects ++ [claimCall] ∧
        (claimReward false rankedX).rewardClaimed = true ∧
        claimOffered (claimReward false rankedX) = false) :=
  ⟨by decide, by decide,
    claimReward_marks_claimed_either_way rankedX false (by decide) (by decide)⟩

/-- C8: for a connected identity, whatever the leaderboard and the claim flag,
the claim is offered and `claimReward` proceeds to the claim transaction if and
only if the 1-based position of the identity in the leaderboard is 1, 2 or 3
and `rewardClaimed` is false; an identity at position 4 or later, or without
entry (rank 0, which is the case exactly when no entry carries its address), is
not offered the claim and `claimReward` makes no call to the wallet for it. -/
theorem eligible_iff_top_three_unclaimed (s : AppState) (hw : s.walletConnected = true) :
    ((claimOffered s = true ∧ ∀ txOk, (claimReward txOk s).effects = s.effects ++ [claimCall]) ↔
        ((userRank s = 1 ∨ userRank s = 2 ∨ userRank s = 3) ∧ s.rewardClaimed = false)) ∧
      ((userRank s = 0 ∨ 4 ≤ userRank s) →
        claimOffered s = false ∧
          ∀ txOk, claimCalls (claimReward txOk s) = claimCalls s ∧
            (claimReward txOk s).rewardClaimed = s.rewardClaimed) ∧
      (userRank s = 0 ↔ ∀ e ∈ s.leaderboard, e.address ≠ s.accountAddress) := by
  refine ⟨⟨fun h => ?_, fun h => ?_⟩, fun h => ?_, userRank_eq_zero s⟩
  · obtain ⟨hoff, _⟩ := h
    simp only [claimOffered, isTopPerformer, Bool.and_eq_true, decide_eq_true_eq,
      Bool.not_eq_true'] at hoff
    obtain ⟨⟨⟨h1, h2⟩, h3⟩, _⟩ := hoff
    exact ⟨by omega, h3⟩
  · obtain ⟨hrank, hflag⟩ := h
    have h1 : ¬ (userRank s > 3) := by omega
    have h2 : ¬ (userRank s = 0) := by omega
    have h3 : userRank s > 0 := by omega
    have h4 : userRank s ≤ 3 := by omega
    refine ⟨by simp [claimOffered, isTopPerformer, hw, hflag, h3, h4], fun txOk => ?_⟩
    cases txOk <;> simp [claimReward, hw, h1, h2]
  · have hcond : (userRank s > 3 || userRank s == 0) = true := by
      rcases h with h | h
      · simp [h]
      · have : userRank s > 3 := by omega
        simp [this]
    have hnot : isTopPerformer s = false := by
      simp only [isTopPerformer, Bool.and_eq_false_imp, decide_eq_true_eq, decide_eq_false_iff_not]
      intro hpos
      omega
    refine ⟨by simp [claimOffered, hnot], fun txOk => ?_⟩
    have hstate : claimReward txOk s =
        { s with effects := s.effects ++
            [Effect.alert "Only top 3 performers can claim rewards!"] } := by
      simp only [claimReward, hw, hcond]
      simp
    rw [hstate]
    refine ⟨?_, rfl⟩
    simp only [claimCalls, List.count_append]
    have : List.count claimCall [Effect.alert "Only top 3 performers can claim rewards!"] = 0 := by
      decide
    rw [this]
    rfl

/-- Witness of C8 at `rankedX`: X is first and unclaimed. -/
theorem eligible_iff_top_three_unclaimed_witness :
    rankedX.walletConnected = true ∧ userRank rankedX = 1 ∧ claimOffered rankedX = true ∧
      (((claimOffered rankedX = true ∧
            ∀ txOk, (claimReward txOk rankedX).effects = rankedX.effects ++ [claimCall]) ↔
          ((userRank rankedX = 1 ∨ userRank rankedX = 2 ∨ userRank rankedX = 3) ∧
            rankedX.rewardClaimed = false)) ∧
        ((userRank rankedX = 0 ∨ 4 ≤ userRank rankedX) →
          claimOffered rankedX = false ∧
            ∀ txOk, claimCalls (claimReward txOk rankedX) = claimCalls rankedX ∧
              (claimReward txOk rankedX).rewardClaimed = rankedX.rewardClaimed) ∧
        (userRank rankedX = 0 ↔ ∀ e ∈ rankedX.leaderboard, e.address ≠ rankedX.accountAddress)) :=
  ⟨by decide, by decide, by decide, eligible_iff_top_three_unclaimed rankedX (by decide)⟩

/-! ## Lemmas on the two submission paths -/

theorem storeWeight_perm (l1 l2 : List Entry) (h : l1.Perm l2) :
    storeWeight l1 = storeWeight l2 := by
  unfold storeWeight
  rw [h.length_eq, (h.map Entry.score).sum_eq]

/-- An upsert that changes the store makes it heavier. -/
theorem storeWeight_upsertLocal (store : List Entry) (a : String) (sc t : Nat)
    (h : upsertLocal store a sc t ≠ store) :
    storeWeight store < storeWeight (upsertLocal store a sc t) := by
  induction store with
  | nil => simp [upsertLocal_nil, storeWeight]
  | cons e es ih =>
    rw [upsertLocal_cons] at h ⊢
    by_cases he : e.address = a
    · by_cases hs : sc > e.score
      · simp only [he, hs, if_true, storeWeight, List.length_cons, List.map_cons, List.sum_cons]
        omega
      · simp [he, hs] at h
    · simp only [he, if_false] at h ⊢
      have hne : upsertLocal es a sc t ≠ es := fun heq => h (by rw [heq])
      have := ih hne
      simp only [storeWeight, List.length_cons, List.map_cons, List.sum_cons] at this ⊢
      omega

/-- The upsert leaves the store as it is exactly when the identity already
holds a score that the new one does not exceed. -/
theorem upsertLocal_eq_self_iff (store : List Entry) (a : String) (sc t : Nat) :
    upsertLocal store a sc t = store ↔ ∃ m, storedScore store a = some m ∧ sc ≤ m := by
  induction store with
  | nil => simp [upsertLocal_nil, storedScore_nil]
  | cons e es ih =>
    rw [upsertLocal_cons, storedScore_cons]
    by_cases he : e.address = a
    · by_cases hs : sc > e.score
      · simp only [he, hs, if_true, Option.some.injEq, exists_eq_left', List.cons.injEq,
          and_true]
        constructor
        · intro heq
          have : sc = e.score := by rw [← heq]
          omega
        · intro hle
          omega
      · simp only [he, hs, if_true, if_false, Option.some.injEq, exists_eq_left', true_iff]
        omega
    · simp only [he, if_false, List.cons.injEq, true_and]
      exact ih

theorem sortByScore_upsertLocal_eq_iff (store : List Entry) (a : String) (sc t : Nat) :
    sortByScore (upsertLocal store a sc t) = sortByScore store ↔
      upsertLocal store a sc t = store := by
  constructor
  · intro heq
    by_contra hne
    have hlt := storeWeight_upsertLocal store a sc t hne
    have h1 := storeWeight_perm _ _ (sortByScore_perm (upsertLocal store a sc t))
    have h2 := storeWeight_perm _ _ (sortByScore_perm store)
    rw [heq] at h1
    omega
  · intro heq
    rw [heq]

/-! ## Degraded mode: claims -/

/-- C9, as stated, fails: X has finished the quiz with 100 on an empty store.
When the ledger write fails the store holds the entry of X and the leaderboard
ranks X first, with the claim offered; when it succeeds the store stays empty,
and the leaderboard refreshed by the scheduled `fetchLeaderboard` is empty, X
has no rank and the claim is not offered. -/
theorem submit_paths_differ :
    finishedX.score = 100 ∧ finishedX.localStorage = [] ∧
      (submitScoreToBlockchain false 5 finishedX).localStorage = [⟨"X", 100, 5⟩] ∧
      (submitScoreToBlockchain false 5 finishedX).leaderboard = [⟨"X", 100, 5⟩] ∧
      userRank (submitScoreToBlockchain false 5 finishedX) = 1 ∧
      claimOffered (submitScoreToBlockchain false 5 finishedX) = true ∧
      (fireFetchTimer (submitScoreToBlockchain true 5 finishedX)).localStorage = [] ∧
      (fireFetchTimer (submitScoreToBlockchain true 5 finishedX)).leaderboard = [] ∧
      userRank (fireFetchTimer (submitScoreToBlockchain true 5 finishedX)) = 0 ∧
      claimOffered (fireFetchTimer (submitScoreToBlockchain true 5 finishedX)) = false := by
  refine ⟨by decide, by decide, by decide, by decide, by decide, by decide, by decide, by decide,
    by decide, by decide⟩

/-- C9, amended: for a connected wallet, when the ledger write succeeds
`submitScoreToBlockchain` leaves the local store as it is and the leaderboard
refreshed by the scheduled `fetchLeaderboard` is that of the unchanged store;
when the ledger write fails the store becomes the upsert of (identity, score)
and the leaderboard is that of the new store.  The two stores are equal, and so
are the two leaderboards, exactly when the store already holds for the identity
a score that the submitted one does not exceed. -/
theorem submit_paths_agree_iff (s : AppState) (now : Nat) (hw : s.walletConnected = true) :
    (fireFetchTimer (submitScoreToBlockchain true now s)).localStorage = s.localStorage ∧
      (fireFetchTimer (submitScoreToBlockchain true now s)).leaderboard =
        sortByScore s.localStorage ∧
      (submitScoreToBlockchain false now s).localStorage =
        upsertLocal s.localStorage s.accountAddress s.score now ∧
      (submitScoreToBlockchain false now s).leaderboard =
        sortByScore (upsertLocal s.localStorage s.accountAddress s.score now) ∧
      ((submitScoreToBlockchain false now s).localStorage =
          (fireFetchTimer (submitScoreToBlockchain true now s)).localStorage ↔
        ∃ m, storedScore s.localStorage s.accountAddress = some m ∧ s.score ≤ m) ∧
      ((submitScoreToBlockchain false now s).leaderboard =
          (fireFetchTimer (submitScoreToBlockchain true now s)).leaderboard ↔
        ∃ m, storedScore s.localStorage s.accountAddress = some m ∧ s.score ≤ m) := by
  have hok : (fireFetchTimer (submitScoreToBlockchain true now s)).localStorage = s.localStorage ∧
      (fireFetchTimer (submitScoreToBlockchain true now s)).leaderboard =
        sortByScore s.localStorage := by
    simp [submitScoreToBlockchain, hw, fireFetchTimer, fetchLeaderboard]
  have hfail : (submitScoreToBlockchain false now s).localStorage =
        upsertLocal s.localStorage s.accountAddress s.score now ∧
      (submitScoreToBlockchain false now s).leaderboard =
        sortByScore (upsertLocal s.localStorage s.accountAddress s.score now) := by
    simp [submitScoreToBlockchain, hw, fetchLeaderboard]
  refine ⟨hok.1, hok.2, hfail.1, hfail.2, ?_, ?_⟩
  · rw [hok.1, hfail.1]
    exact upsertLocal_eq_self_iff _ _ _ _
  · rw [hok.2, hfail.2, sortByScore_upsertLocal_eq_iff]
    exact upsertLocal_eq_self_iff _ _ _ _

/-- Witness of the amended C9 at `finishedX`, submitted at time 5. -/
theorem submit_paths_agree_iff_witness :
    finishedX.walletConnected = true ∧
      ((fireFetchTimer (submitScoreToBlockchain true 5 finishedX)).localStorage =
          finishedX.localStorage ∧
        (fireFetchTimer (submitScoreToBlockchain true 5 finishedX)).leaderboard =
          sortByScore finishedX.localStorage ∧
        (submitScoreToBlockchain false 5 finishedX).localStorage =
          upsertLocal finishedX.localStorage finishedX.accountAddress finishedX.score 5 ∧
        (submitScoreToBlockchain false 5 finishedX).leaderboard =
          sortByScore (upsertLocal finishedX.localStorage finishedX.accountAddress finishedX.score 5) ∧
        ((submitScoreToBlockchain false 5 finishedX).localStorage =
            (fireFetchTimer (submitScoreToBlockchain true 5 finishedX)).localStorage ↔
          ∃ m, storedScore finishedX.localStorage finishedX.accountAddress = some m ∧
            finishedX.score ≤ m) ∧
        ((submitScoreToBlockchain false 5 finishedX).leaderboard =
            (fireFetchTimer (submitScoreToBlockchain true 5 finishedX)).leaderboard ↔
          ∃ m, storedScore finishedX.localStorage finishedX.accountAddress = some m ∧
            finishedX.score ≤ m)) :=
  ⟨by decide, submit_paths_agree_iff finishedX 5 (by decide)⟩

/-! ## Lemmas on runs of the quiz -/

theorem sessionAt_of_fresh (s : AppState) (h : FreshSession s) : SessionAt 0 s := by
  obtain ⟨h1, h2, _, h4⟩ := h
  exact ⟨by omega, by simp [h1, h2], Or.inl h4⟩

theorem sessionAt_startQuiz (n : Nat) (s : AppState) (h : SessionAt n s)
    (ht : s.revealTimers = []) :
    SessionAt (if s.walletConnected then 0 else n) (startQuiz s) := by
  obtain ⟨h1, h2, _⟩ := h
  cases hw : s.walletConnected with
  | false =>
    have e1 : (startQuiz s).currentQuestion = s.currentQuestion := by simp [startQuiz, hw]
    have e2 : (startQuiz s).selectedAnswer = s.selectedAnswer := by simp [startQuiz, hw]
    have e3 : (startQuiz s).revealTimers = s.revealTimers := by simp [startQuiz, hw]
    unfold SessionAt
    rw [e1, e2, e3]
    exact ⟨h1, by simpa using h2, Or.inl ht⟩
  | true =>
    have e1 : (startQuiz s).currentQuestion = 0 := by simp [startQuiz, hw]
    have e2 : (startQuiz s).selectedAnswer = none := by simp [startQuiz, hw]
    have e3 : (startQuiz s).revealTimers = s.revealTimers := by simp [startQuiz, hw]
    unfold SessionAt
    rw [e1, e2, e3]
    exact ⟨by omega, by simp, Or.inl ht⟩

theorem sessionAt_handleAnswerSelect (n index : Nat) (s : AppState) (h : SessionAt n s) :
    SessionAt (if s.selectedAnswer = none then n + 1 else n) (handleAnswerSelect index s) := by
  obtain ⟨h1, h2, h3⟩ := h
  by_cases hsel : s.selectedAnswer = none
  · obtain ⟨c, hc⟩ := QUIZ_QUESTIONS_get s.currentQuestion (by omega)
    have ht : s.revealTimers = [] := by
      rcases h3 with h3 | h3
      · exact h3
      · exact absurd hsel h3.2
    have : handleAnswerSelect index s = { s with
        selectedAnswer := some index
        score := if index == c then s.score + 10 else s.score
        revealTimers := s.revealTimers ++ [s.currentQuestion] } := by
      simp [handleAnswerSelect, hsel, hc]
    rw [this, if_pos hsel]
    simp only [hsel, if_true] at h2
    exact ⟨h1, by simp; omega, Or.inr ⟨by simp [ht], by simp⟩⟩
  · have : handleAnswerSelect index s = s := by simp [handleAnswerSelect, hsel]
    rw [this, if_neg hsel]
    exact ⟨h1, h2, h3⟩

theorem sessionAt_fireRevealTimer (n k : Nat) (s : AppState) (h : SessionAt n s) :
    SessionAt n (fireRevealTimer k s) := by
  obtain ⟨h1, h2, h3⟩ := h
  rcases h3 with h3 | ⟨h3, hsel⟩
  · have : fireRevealTimer k s = s := by simp [fireRevealTimer, h3]
    rw [this]
    exact ⟨h1, h2, Or.inl h3⟩
  · cases k with
    | succ k =>
      have : fireRevealTimer (k + 1) s = s := by simp [fireRevealTimer, h3]
      rw [this]
      exact ⟨h1, h2, Or.inr ⟨h3, hsel⟩⟩
    | zero =>
      have hlen : QUIZ_QUESTIONS.length - 1 = 9 := rfl
      simp only [hsel, if_false] at h2
      by_cases h9 : s.currentQuestion < 9
      · have : fireRevealTimer 0 s = { s with
            revealTimers := []
            currentQuestion := s.currentQuestion + 1
            selectedAnswer := none } := by
          simp [fireRevealTimer, h3, revealToNext, hlen, h9]
        rw [this]
        exact ⟨by simp; omega, by simp; omega, Or.inl rfl⟩
      · have : fireRevealTimer 0 s = { s with revealTimers := [], quizCompleted := true } := by
          simp [fireRevealTimer, h3, revealToNext, hlen, h9]
        rw [this]
        exact ⟨h1, by simp [hsel]; omega, Or.inl rfl⟩

/-- Along a run that never restarts while a reveal is pending, the state stays
that of a session with the counted number of answered questions. -/
theorem sessionAt_quizRun (steps : List QuizStep) (n : Nat) (s : AppState) (h : SessionAt n s)
    (hd : NoRestartWhilePending s steps) :
    SessionAt (answeredInSession n s steps) (quizRun s steps) := by
  induction steps generalizing n s with
  | nil => exact h
  | cons step rest ih =>
    obtain ⟨hd1, hd2⟩ := hd
    cases step with
    | startQuiz =>
      simp only [answeredInSession, quizRun]
      exact ih _ _ (sessionAt_startQuiz n s h (hd1 rfl)) hd2
    | handleAnswerSelect index =>
      simp only [answeredInSession, quizRun]
      exact ih _ _ (sessionAt_handleAnswerSelect n index s h) hd2
    | fireRevealTimer k =>
      simp only [answeredInSession, quizRun]
      exact ih _ _ (sessionAt_fireRevealTimer n k s h) hd2
    | leaveQuiz =>
      simp only [answeredInSession, quizRun]
      exact ih _ _ ⟨h.1, h.2.1, h.2.2⟩ hd2

/-! ## Runs of the quiz: claims -/

/-- C10, as stated, fails: reveal timers are never cancelled.  In `restartRun`
the timer of the abandoned session runs after the restart: before it the new
session is at currentQuestion 0 with no answer selected, after it the new
session is at currentQuestion 1 although no question of it has been answered.
In `lateRestartRun` the stale timer moves the new session from question 0 to
question 4. -/
theorem stale_reveal_fires_into_new_session :
    (quizRun connectedX restartRun.dropLast).currentQuestion = 0 ∧
      (quizRun connectedX restartRun.dropLast).selectedAnswer = none ∧
      (quizRun connectedX restartRun.dropLast).revealTimers = [0] ∧
      answeredInSession 0 connectedX restartRun = 0 ∧
      (quizRun connectedX restartRun).currentQuestion = 1 ∧
      ¬ SessionAt (answeredInSession 0 connectedX restartRun) (quizRun connectedX restartRun) ∧
      (quizRun connectedX lateRestartRun.dropLast).currentQuestion = 0 ∧
      answeredInSession 0 connectedX lateRestartRun = 0 ∧
      (quizRun connectedX lateRestartRun).currentQuestion = 4 ∧
      FreshSession connectedX ∧ ¬ NoRestartWhilePending connectedX restartRun := by
  refine ⟨by decide, by decide, by decide, by decide, by decide, ?_, by decide, by decide,
    by decide, by decide, by decide⟩
  intro h
  have h2 := h.2.1
  have e1 : answeredInSession 0 connectedX restartRun = 0 := by decide
  have e2 : (quizRun connectedX restartRun).currentQuestion = 1 := by decide
  rw [e1, e2] at h2
  split at h2 <;> omega

/-- C10, amended: in every run of the quiz state machine (startQuiz,
handleAnswerSelect, a pending reveal timer running, leaving the quiz view) that
begins in a fresh session and in which startQuiz is never called while a
reveal timer is pending, currentQuestion is, after every step, the number of
questions answered in the current session, less one while the answer of the
last answered question is still selected: it increases by exactly one per
answered question, when that question's reveal runs, and never otherwise, and
the only timer ever pending is the reveal of the current question. -/
theorem currentQuestion_counts_answers (s : AppState) (steps : List QuizStep)
    (hfresh : FreshSession s) (hd : NoRestartWhilePending s steps) :
    (quizRun s steps).currentQuestion +
        (if (quizRun s steps).selectedAnswer = none then 0 else 1) =
        answeredInSession 0 s steps ∧
      (quizRun s steps).currentQuestion ≤ 9 ∧
      ((quizRun s steps).revealTimers = [] ∨
        ((quizRun s steps).revealTimers = [(quizRun s steps).currentQuestion] ∧
          (quizRun s steps).selectedAnswer ≠ none)) := by
  obtain ⟨h1, h2, h3⟩ := sessionAt_quizRun steps 0 s (sessionAt_of_fresh s hfresh) hd
  exact ⟨h2, h1, h3⟩

/-- Witness of the amended C10 at `patientRun`: at its end one question of
the second session is answered and its answer is still selected. -/
theorem currentQuestion_counts_answers_witness :
    FreshSession connectedX ∧ NoRestartWhilePending connectedX patientRun ∧
      answeredInSession 0 connectedX patientRun = 1 ∧
      ((quizRun connectedX patientRun).currentQuestion +
          (if (quizRun connectedX patientRun).selectedAnswer = none then 0 else 1) =
          answeredInSession 0 connectedX patientRun ∧
        (quizRun connectedX patientRun).currentQuestion ≤ 9 ∧
        ((quizRun connectedX patientRun).revealTimers = [] ∨
          ((quizRun connectedX patientRun).revealTimers =
              [(quizRun connectedX patientRun).currentQuestion] ∧
            (quizRun connectedX patientRun).selectedAnswer ≠ none))) :=
  ⟨by decide, by decide, by decide,
    currentQuestion_counts_answers connectedX patientRun (by decide) (by decide)⟩

end QuizLeaderboard
